import Mathlib

/-!
Verification of the trading_engine backtesting core: a shallow embedding of
`trading_engine/event.py`, `trading_engine/portfolio.py`,
`trading_engine/data.py` and `trading_engine/performance.py`, with theorems
settling the specified properties of fill accounting, the naive order policy,
price adjustment, timestamp alignment, bar advancement, Sharpe-ratio
degeneracy and drawdown invariants.

Prices and cash are embedded as rationals (`ℚ`), positions and quantities as
integers (`ℤ`), timestamps as naturals, string tags (`'BUY'`, `'SELL'`,
`'MKT'`, `'FILL'`) as `String`.
-/

namespace TradingEngine

/-! ## Event model (`trading_engine/event.py`) -/

/-- `SignalEvent` from `event.py`: `type` tag (the constructor sets
`'SIGNAL'`, but `Portfolio.update_signal` never checks it), `symbol` and
`direction`.  `strategy_id` and `datetime` are never read by the portfolio
and are omitted. -/
structure SignalEvent where
  type : String
  symbol : String
  direction : String
deriving DecidableEq, Repr

/-- `OrderEvent` from `event.py`: the constructor sets `type = 'ORDER'` and
stores symbol, order type (`'MKT'`/`'LMT'`), quantity and direction. -/
structure OrderEvent where
  type : String
  symbol : String
  order_type : String
  quantity : ℤ
  direction : String
deriving DecidableEq, Repr

/-- `FillEvent` from `event.py`: the constructor sets `type = 'FILL'` and
stores symbol, quantity, direction, `fill_cost` and `commission`.
`datetime` and `exchange` are never read by the portfolio and are omitted. -/
structure FillEvent where
  type : String
  symbol : String
  quantity : ℤ
  direction : String
  fill_cost : ℚ
  commission : ℚ
deriving DecidableEq, Repr

/-! ## Portfolio (`trading_engine/portfolio.py`) -/

/-- The mutable state of a `Portfolio` object, together with the parts of its
collaborators it reads: `bars` gives, per symbol, the value returned by
`self.bars.get_latest_bar_value(symbol, "adj_close")` at the current moment,
and `events` is the shared event queue (`self.events`), which after
`update_signal` holds `Option OrderEvent` entries because Python's
`Queue.put` accepts `None`.  `current_holdings` is split into its per-symbol
entries (`holdings_sym`) and its `'cash'`, `'commission'` and `'total'`
keys. -/
structure Portfolio where
  symbol_list : List String
  bars : String → ℚ
  current_positions : String → ℤ
  holdings_sym : String → ℚ
  cash : ℚ
  commission : ℚ
  total : ℚ
  events : List (Option OrderEvent)

/-- A fresh portfolio as produced by `Portfolio.__init__` together with
`construct_current_holdings`: every position 0, every per-symbol holding 0.0,
`cash = total = initial_capital`, `commission = 0.0`. -/
def initPortfolio (symbols : List String) (bars : String → ℚ)
    (initial_capital : ℚ) : Portfolio where
  symbol_list := symbols
  bars := bars
  current_positions := fun _ => 0
  holdings_sym := fun _ => 0
  cash := initial_capital
  commission := 0
  total := initial_capital
  events := []

/-- The directional multiplier computed at the top of both
`update_positions_from_fill` and `update_holdings_from_fill`:
`fill_dir = 0`, set to `1` if the direction is `'BUY'` and to `-1` if it is
`'SELL'` (two independent `if` statements). -/
def fill_dir (direction : String) : ℤ :=
  let d : ℤ := 0
  let d := if direction = "BUY" then 1 else d
  if direction = "SELL" then -1 else d

/-- `Portfolio.update_positions_from_fill`:
`self.current_positions[fill.symbol] += fill_dir * fill.quantity`. -/
def update_positions_from_fill (p : Portfolio) (fill : FillEvent) : Portfolio :=
  { p with current_positions := fun s =>
      if s = fill.symbol then
        p.current_positions s + fill_dir fill.direction * fill.quantity
      else p.current_positions s }

/-- `Portfolio.update_holdings_from_fill`.  Note the source reads
`fill_cost = self.bars.get_latest_bar_value(fill.symbol, "adj_close")` — the
latest bar's adjusted close — and never touches the `fill_cost` field of the
`FillEvent`.  Then `cost = fill_dir * fill_cost * fill.quantity` and the four
updates to `current_holdings`. -/
def update_holdings_from_fill (p : Portfolio) (fill : FillEvent) : Portfolio :=
  let fill_cost := p.bars fill.symbol
  let cost : ℚ := (fill_dir fill.direction : ℚ) * fill_cost * (fill.quantity : ℚ)
  { p with
    holdings_sym := fun s =>
      if s = fill.symbol then p.holdings_sym s + cost else p.holdings_sym s
    commission := p.commission + fill.commission
    cash := p.cash - (cost + fill.commission)
    total := p.total - (cost + fill.commission) }

/-- `Portfolio.update_fill`: if the event's tag is `'FILL'`, apply
`update_positions_from_fill` then `update_holdings_from_fill`. -/
def update_fill (p : Portfolio) (event : FillEvent) : Portfolio :=
  if event.type = "FILL" then
    update_holdings_from_fill (update_positions_from_fill p event) event
  else p

/-- `Portfolio.generate_naive_order`: `order = None`; hard-coded
`mkt_quantity = 100` and `order_type = 'MKT'`; a BUY order of the fixed
quantity when the direction is `'BUY'` and the current position is 0; a SELL
order of `abs(cur_quantity)` when the direction is `'SELL'` and the current
position is positive (two sequential `if` statements, the later overriding
the earlier). -/
def generate_naive_order (p : Portfolio) (signal : SignalEvent) :
    Option OrderEvent :=
  let order : Option OrderEvent := none
  let symbol := signal.symbol
  let direction := signal.direction
  let mkt_quantity : ℤ := 100
  let cur_quantity := p.current_positions symbol
  let order_type := "MKT"
  let order := if direction = "BUY" ∧ cur_quantity = 0 then
      some ⟨"ORDER", symbol, order_type, mkt_quantity, "BUY"⟩ else order
  let order := if direction = "SELL" ∧ cur_quantity > 0 then
      some ⟨"ORDER", symbol, order_type, |cur_quantity|, "SELL"⟩ else order
  order

/-- `Portfolio.update_signal`: the guard `if event.type == 'SIGNAL':` is
commented out in the source, so the naive order (possibly `None`) is
unconditionally computed and `put` on the shared event queue. -/
def update_signal (p : Portfolio) (event : SignalEvent) : Portfolio :=
  let order_event := generate_naive_order p event
  { p with events := p.events ++ [order_event] }

/-- A sequence of fills processed through `Portfolio.update_fill`, each
paired with the bar prices (`get_latest_bar_value(·, "adj_close")`) in force
when that fill is processed — between fills the data handler may have
advanced, so the price oracle may change. -/
def apply_fills (p : Portfolio) (fills : List (FillEvent × (String → ℚ))) :
    Portfolio :=
  fills.foldl (fun st fb => update_fill { st with bars := fb.2 } fb.1) p

/-! ## Data handler (`trading_engine/data.py`) -/

/-- The discontinuity positions collected by the scan loop of
`TsetmcHistoricCSVDataHandler._adjust_prices`: for `i` ranging over
`0 ≤ i < len - 1`, position `i + 1` is recorded whenever
`close[i] != yesterday[i+1]`.  (The source stores the *row label* of row
`i + 1`; with a strictly increasing date index, positions and labels are in
order-preserving bijection, so positions stand for labels here.) -/
def adjIndex (close yesterday : List ℚ) : List ℕ :=
  (List.range (close.length - 1)).filterMap fun i =>
    if close.getD i 0 ≠ yesterday.getD (i + 1) 0 then some (i + 1) else none

/-- The adjustment rate attached to discontinuity position `j` in
`_adjust_prices`: `yesterday[j] / close.shift()[j]`, i.e. the `yesterday`
reference at the discontinuity divided by the raw close of the immediately
preceding row. -/
def adjRate (close yesterday : List ℚ) (j : ℕ) : ℚ :=
  yesterday.getD j 0 / close.getD (j - 1) 0

/-- One assignment `df.loc[: label_j, ['adj_close']] = adj_close[: label_j] * rate`
from `_adjust_prices`.  Pandas label slicing `[: label]` is inclusive of the
end label, so the rows at positions `0, …, j` — the discontinuity row
included — are multiplied by the rate. -/
def applyAdj (adj : List ℚ) (j : ℕ) (rate : ℚ) : List ℚ :=
  (adj.take (j + 1)).map (· * rate) ++ adj.drop (j + 1)

/-- `TsetmcHistoricCSVDataHandler._adjust_prices` on one symbol:
`adj_close` starts as a copy of `close`, then each discontinuity's rate is
multiplied, in scan order, into the inclusive prefix ending at the
discontinuity row.  The rates are computed from the raw `close` column,
which is never overwritten. -/
def adjust_prices (close yesterday : List ℚ) : List ℚ :=
  (adjIndex close yesterday).foldl
    (fun adj j => applyAdj adj j (adjRate close yesterday j)) close

/-- `Modelled from the spec:` the price-adjustment step as the specification
words it — each factor multiplied into every bar *strictly before* its
discontinuity point, the discontinuity bar left untouched.  Used only to
compare against `adjust_prices`, the embedding of the source. -/
def adjust_prices_spec (close yesterday : List ℚ) : List ℚ :=
  (adjIndex close yesterday).foldl
    (fun adj j =>
      (adj.take j).map (· * adjRate close yesterday j) ++ adj.drop j) close

/-- A bar as the data handler hands it around: a (timestamp, payload) pair
(`iterrows` yields `(index, row)`); the payload is left abstract as `ℚ`. -/
def Bar : Type := ℕ × ℚ
deriving DecidableEq

/-- The state of a `TsetmcHistoricCSVDataHandler` at replay time:
`symbol_data` holds, per symbol, the bars not yet consumed by the row
iterator; `latest_symbol_data` the bars observed so far; and
`continue_backtest` the flag that `update_bars` clears on exhaustion.
`market_events` counts the `MarketEvent`s put on the queue. -/
structure DH where
  symbol_list : List String
  symbol_data : String → List Bar
  latest_symbol_data : String → List Bar
  continue_backtest : Bool
  market_events : ℕ

/-- The per-symbol body of the loop in
`TsetmcHistoricCSVDataHandler.update_bars`: try to pull the next bar from
the symbol's iterator; on `StopIteration` set `continue_backtest = False`
(and continue with the other symbols); otherwise append the bar to
`latest_symbol_data[s]`. -/
def update_bars_step (st : DH) (s : String) : DH :=
  match st.symbol_data s with
  | [] => { st with continue_backtest := false }
  | b :: rest =>
      { st with
        symbol_data := fun s2 => if s2 = s then rest else st.symbol_data s2
        latest_symbol_data := fun s2 =>
          if s2 = s then st.latest_symbol_data s2 ++ [b]
          else st.latest_symbol_data s2 }

/-- `TsetmcHistoricCSVDataHandler.update_bars`: run the per-symbol step over
`symbol_list` in order, then put a `MarketEvent` on the queue. -/
def update_bars (d : DH) : DH :=
  let d := d.symbol_list.foldl update_bars_step d
  { d with market_events := d.market_events + 1 }

/-- The index-combination loop of `TsetmcHistoricCSVDataHandler._reindex`:
`comb_index` starts as `None` and is set to the first symbol's index; for
every later symbol the source evaluates `comb_index.union(...)` but discards
the result (`pandas.Index.union` is not in-place), so `comb_index` remains
the first symbol's index. -/
def combIndex (idxs : List (List ℕ)) : Option (List ℕ) :=
  idxs.foldl
    (fun comb idx =>
      match comb with
      | none => some idx
      | some c => some c)
    none

/-- `Modelled from the spec:` the combined index as the specification words
it — the union of all symbols' native timestamps (membership is the
content; pandas additionally sorts, which is immaterial here).  Used only to
compare against `combIndex`, the embedding of the source. -/
def combIndexSpec (idxs : List (List ℕ)) : List ℕ :=
  idxs.foldl (fun acc idx => acc ∪ idx) []

/-! ## Performance (`trading_engine/performance.py`)

`create_sharpe_ratio` is a straight-line numpy expression
`np.sqrt(periods) * np.mean(returns) / np.std(returns)` with no error
handling anywhere in the module (no exception type is defined or raised in
the repository).  Numpy float division of a finite numerator by `0.0`
produces `inf`/`-inf` (or `nan` for `0.0/0.0`) and emits only a
`RuntimeWarning`; it never raises.  The embedding makes the float outcome
explicit with `NpFloat`. -/

/-- The outcome of a numpy float computation: a finite real, `inf`,
`-inf`, or `nan`. -/
inductive NpFloat where
  | finite (x : ℝ)
  | inf
  | neginf
  | nan

/-- `np.mean(xs)`: sum divided by length. -/
noncomputable def npMean (xs : List ℝ) : ℝ := xs.sum / xs.length

/-- `np.std(xs)`: the population standard deviation,
`sqrt(mean((x - mean(xs))^2))`. -/
noncomputable def npStd (xs : List ℝ) : ℝ :=
  Real.sqrt (npMean (xs.map fun x => (x - npMean xs) ^ 2))

/-- `performance.create_sharpe_ratio`:
`np.sqrt(periods) * np.mean(returns) / np.std(returns)`, with the IEEE
semantics of the final division spelt out — a zero divisor yields `inf`,
`-inf` or `nan` according to the sign of the numerator, without raising. -/
noncomputable def create_sharpe_ratio (returns : List ℝ) (periods : ℝ) :
    NpFloat :=
  let numerator := Real.sqrt periods * npMean returns
  if npStd returns = 0 then
    if 0 < numerator then .inf
    else if numerator < 0 then .neginf
    else .nan
  else .finite (numerator / npStd returns)

/-- The error taxonomy the specification prescribes for the performance
module. -/
inductive PerfError where
  | DegenerateSeries
deriving DecidableEq, Repr

/-- `Modelled from the spec:` the Sharpe computation as the specification
words it — failing with `DegenerateSeries` when the standard deviation is
zero, returning `sqrt(periods) * mean / stddev` otherwise.  Used only to
compare against `create_sharpe_ratio`, the embedding of the source. -/
noncomputable def sharpe_spec (returns : List ℝ) (periods : ℝ) :
    Except PerfError ℝ :=
  if npStd returns = 0 then .error .DegenerateSeries
  else .ok (Real.sqrt periods * npMean returns / npStd returns)

/-- The running high-water-mark of `performance.create_drawdown`:
`hwm = [0]`, then `hwm.append(max(hwm[t-1], pnl[t]))` for `t ≥ 1`. -/
def hwm (pnl : List ℚ) : ℕ → ℚ
  | 0 => 0
  | t + 1 => max (hwm pnl t) (pnl.getD (t + 1) 0)

/-- The value `create_drawdown` assigns to `drawdown[t]` for `1 ≤ t < len`:
`hwm[t] - pnl[t]`.  (The loop runs from `t = 1`; index 0 of the returned
series is never assigned and stays `NaN`.) -/
def drawdownVal (pnl : List ℚ) (t : ℕ) : ℚ := hwm pnl t - pnl.getD t 0

/-- The value `create_drawdown` assigns to `duration[t]` for `1 ≤ t < len`:
`0 if drawdown[t] == 0 else duration[t-1] + 1`.  `duration[0]` is never
assigned, so it is `NaN` (`none` here); pandas `NaN + 1 = NaN`, which the
`Option.map` reproduces. -/
def durationVal (pnl : List ℚ) : ℕ → Option ℚ
  | 0 => none
  | t + 1 =>
      if drawdownVal pnl (t + 1) = 0 then some 0
      else (durationVal pnl t).map (· + 1)

/-! ## Theorems -/

lemma buy_ne_sell : ("BUY" : String) ≠ "SELL" := by decide

lemma fill_dir_buy : fill_dir "BUY" = 1 := by
  simp [fill_dir, buy_ne_sell]

lemma fill_dir_sell : fill_dir "SELL" = -1 := by
  simp [fill_dir]

/-- C1 (counterexample): processing a fill whose `fill_cost` field is 7
while the latest bar's adjusted close is 5 (BUY, quantity 1, commission 0,
initial cash 100000) leaves cash at 99995 — the code charged the bar price —
whereas the claim, using the FillEvent's `fill_cost` field, predicts
99993. -/
theorem fill_uses_bar_price_not_fill_cost :
    (update_fill (initPortfolio ["A"] (fun _ => 5) 100000)
        ⟨"FILL", "A", 1, "BUY", 7, 0⟩).cash = 99995
    ∧ (100000 : ℚ) - ((fill_dir "BUY" : ℚ) * (7 : ℚ) * (1 : ℚ) + 0) = 99993
    ∧ (99995 : ℚ) ≠ 99993 := by
  refine ⟨?_, by norm_num [fill_dir_buy], by norm_num⟩
  simp [update_fill, update_holdings_from_fill, update_positions_from_fill,
    initPortfolio, fill_dir_buy]
  norm_num

/-- C1 (amended): for every fill processed by the portfolio, with
`dir = fill_dir direction` (+1 for BUY, −1 for SELL), the fill's instrument's
position increases by `dir * quantity`, cash decreases by
`dir * price * quantity + commission`, cumulative commission increases by
`commission`, and total decreases by `dir * price * quantity + commission`,
where `price` is the latest bar's adjusted close for the instrument — not
the FillEvent's `fill_cost` field — and all other instruments' positions are
unchanged. -/
theorem fill_accounting (p : Portfolio) (f : FillEvent) (h : f.type = "FILL") :
    (update_fill p f).current_positions f.symbol
        = p.current_positions f.symbol + fill_dir f.direction * f.quantity
    ∧ (∀ s, s ≠ f.symbol →
        (update_fill p f).current_positions s = p.current_positions s)
    ∧ (update_fill p f).cash
        = p.cash - ((fill_dir f.direction : ℚ) * p.bars f.symbol * (f.quantity : ℚ)
            + f.commission)
    ∧ (update_fill p f).commission = p.commission + f.commission
    ∧ (update_fill p f).total
        = p.total - ((fill_dir f.direction : ℚ) * p.bars f.symbol * (f.quantity : ℚ)
            + f.commission) := by
  refine ⟨?_, fun s hs => ?_, ?_, ?_, ?_⟩ <;>
    simp_all [update_fill, update_holdings_from_fill, update_positions_from_fill]

/-- Witness for `fill_accounting` at a concrete fill: BUY 2 at bar price 5
with commission 3 from 100000 cash leaves 99987. -/
theorem fill_accounting_witness :
    (update_fill (initPortfolio ["A"] (fun _ => 5) 100000)
        ⟨"FILL", "A", 2, "BUY", 7, 3⟩).cash = 99987 := by
  have h := fill_accounting (initPortfolio ["A"] (fun _ => 5) 100000)
    ⟨"FILL", "A", 2, "BUY", 7, 3⟩ rfl
  rw [h.2.2.1]
  norm_num [initPortfolio, fill_dir_buy]

/-- C4: the naive order policy — a BUY signal while flat yields exactly the
market order of the fixed quantity 100; a SELL signal while the position is
positive yields exactly the market order of the absolute current position;
every other (direction, position) combination yields no order. -/
theorem naive_order_policy (p : Portfolio) (sig : SignalEvent) :
    (sig.direction = "BUY" → p.current_positions sig.symbol = 0 →
      generate_naive_order p sig = some ⟨"ORDER", sig.symbol, "MKT", 100, "BUY"⟩)
    ∧ (sig.direction = "SELL" → 0 < p.current_positions sig.symbol →
      generate_naive_order p sig =
        some ⟨"ORDER", sig.symbol, "MKT", |p.current_positions sig.symbol|, "SELL"⟩)
    ∧ (¬(sig.direction = "BUY" ∧ p.current_positions sig.symbol = 0) →
      ¬(sig.direction = "SELL" ∧ 0 < p.current_positions sig.symbol) →
      generate_naive_order p sig = none) := by
  refine ⟨fun h1 h2 => ?_, fun h1 h2 => ?_, fun h1 h2 => ?_⟩
  · simp [generate_naive_order, h1, h2, buy_ne_sell]
  · simp [generate_naive_order, h1, h2]
  · simp only [generate_naive_order, gt_iff_lt]
    rw [if_neg h2, if_neg h1]

/-- Witness for `naive_order_policy`: a BUY signal on a flat portfolio
produces the fixed-size market order. -/
theorem naive_order_policy_witness :
    generate_naive_order (initPortfolio ["A"] (fun _ => 0) 0)
        ⟨"SIGNAL", "A", "BUY"⟩ = some ⟨"ORDER", "A", "MKT", 100, "BUY"⟩ :=
  (naive_order_policy (initPortfolio ["A"] (fun _ => 0) 0)
    ⟨"SIGNAL", "A", "BUY"⟩).1 rfl rfl

/-- C10: `update_signal` unconditionally enqueues the naive policy's result
for every event, whatever its type tag; in particular, when the policy
produces no order, a `None` entry is placed on the shared event queue. -/
theorem update_signal_enqueues_always (p : Portfolio) (e : SignalEvent) :
    (update_signal p e).events = p.events ++ [generate_naive_order p e]
    ∧ (generate_naive_order p e = none →
        (update_signal p e).events = p.events ++ [none]) := by
  exact ⟨rfl, fun h => by simp [update_signal, h]⟩

/-- Witness for `update_signal_enqueues_always`: a SELL signal while flat —
and with a non-SIGNAL type tag — still enqueues one entry, namely `none`. -/
theorem update_signal_enqueues_always_witness :
    (update_signal (initPortfolio ["A"] (fun _ => 0) 0)
        ⟨"MARKET", "A", "SELL"⟩).events = [] ++ [none] :=
  (update_signal_enqueues_always (initPortfolio ["A"] (fun _ => 0) 0)
    ⟨"MARKET", "A", "SELL"⟩).2 (by decide)

lemma applyAdj_length (adj : List ℚ) (j : ℕ) (r : ℚ) :
    (applyAdj adj j r).length = adj.length := by
  simp [applyAdj]
  omega

lemma applyAdj_getD (adj : List ℚ) (j : ℕ) (r : ℚ) (p : ℕ) (hp : p < adj.length) :
    (applyAdj adj j r).getD p 0 =
      if p ≤ j then adj.getD p 0 * r else adj.getD p 0 := by
  by_cases hpj : p ≤ j
  · rw [if_pos hpj, applyAdj, List.getD_append]
    · rw [List.getD_eq_getElem _ _ (by simp; omega), List.getElem_map,
        List.getElem_take, List.getD_eq_getElem _ _ hp]
    · simp
      omega
  · rw [if_neg hpj, applyAdj, List.getD_append_right]
    · have hlen : ((adj.take (j + 1)).map (· * r)).length = j + 1 := by
        simp
        omega
      rw [hlen, List.getD_eq_getElem _ _ (by simp; omega),
        List.getElem_drop, List.getD_eq_getElem _ _ hp]
      congr 1
      omega
    · simp
      omega

lemma foldl_applyAdj_getD (r : ℕ → ℚ) (js : List ℕ) (xs : List ℚ) (p : ℕ)
    (hp : p < xs.length) :
    (js.foldl (fun adj j => applyAdj adj j (r j)) xs).getD p 0 =
      xs.getD p 0 * ((js.filter fun j => p ≤ j).map r).prod := by
  induction js generalizing xs with
  | nil => simp
  | cons j js ih =>
    simp only [List.foldl_cons]
    rw [ih _ (by rw [applyAdj_length]; exact hp), applyAdj_getD _ _ _ _ hp]
    by_cases hpj : p ≤ j
    · simp [List.filter_cons, hpj]
      ring
    · simp [List.filter_cons, hpj]

lemma mem_adjIndex (close yesterday : List ℚ) (j : ℕ) :
    j ∈ adjIndex close yesterday ↔
      1 ≤ j ∧ j < close.length ∧ close.getD (j - 1) 0 ≠ yesterday.getD j 0 := by
  simp only [adjIndex, List.mem_filterMap, List.mem_range]
  constructor
  · rintro ⟨i, hi, hif⟩
    by_cases hc : close.getD i 0 ≠ yesterday.getD (i + 1) 0
    · rw [if_pos hc] at hif
      obtain rfl := Option.some.injEq _ _ ▸ hif
      refine ⟨by omega, by omega, by simpa using hc⟩
    · rw [if_neg hc] at hif
      exact absurd hif (by simp)
  · rintro ⟨h1, h2, hne⟩
    refine ⟨j - 1, by omega, ?_⟩
    have hj : j - 1 + 1 = j := by omega
    rw [hj, if_pos hne]

/-- C2 (counterexample): on the raw series `close = [10, 20]`,
`yesterday = [0, 5]` there is one discontinuity, at index 1, with factor
`5 / 10 = 1/2`.  The code (pandas label slicing `[: label]` is
end-inclusive) produces `adjusted_close = [5, 10]`, multiplying the
discontinuity bar itself as well, whereas the claim's
strictly-before application would leave bar 1 untouched and give
`[5, 20]`. -/
theorem adjust_includes_discontinuity_bar :
    adjust_prices [10, 20] [0, 5] = [5, 10]
    ∧ adjust_prices_spec [10, 20] [0, 5] = [5, 20]
    ∧ ([5, 10] : List ℚ) ≠ [5, 20] := by
  refine ⟨?_, ?_, by norm_num⟩ <;>
    norm_num [adjust_prices, adjust_prices_spec, adjIndex, adjRate, applyAdj,
      List.range_succ, List.filterMap_cons, List.filterMap_nil]

/-- C2 (amended): the adjustment marks a discontinuity at index `j ≥ 1`
exactly when the recorded close of bar `j - 1` differs from the `yesterday`
reference of bar `j`; the factor attached to `j` is
`yesterday[j] / close[j-1]` (reference at the discontinuity over the raw
close immediately preceding it); and each factor is multiplied cumulatively
into the adjusted close of every bar at position `p ≤ j` — up to and
*including* the discontinuity bar, since the pandas label slice `[: label]`
is end-inclusive — while bars strictly after `j` are untouched by that
factor. -/
theorem adjust_prices_characterization (close yesterday : List ℚ) :
    (∀ j, j ∈ adjIndex close yesterday ↔
      1 ≤ j ∧ j < close.length ∧ close.getD (j - 1) 0 ≠ yesterday.getD j 0)
    ∧ (∀ p, p < close.length →
      (adjust_prices close yesterday).getD p 0 =
        close.getD p 0 *
          (((adjIndex close yesterday).filter fun j => p ≤ j).map
            (adjRate close yesterday)).prod) := by
  refine ⟨mem_adjIndex close yesterday, fun p hp => ?_⟩
  exact foldl_applyAdj_getD (adjRate close yesterday)
    (adjIndex close yesterday) close p hp

/-- Witness for `adjust_prices_characterization` on `close = [10, 20]`,
`yesterday = [0, 5]`: index 1 is a discontinuity and bar 1's adjusted close
is `20 * (5 / 10) = 10`. -/
theorem adjust_prices_characterization_witness :
    (1 ∈ adjIndex [10, 20] [0, 5] ↔
      1 ≤ 1 ∧ 1 < 2 ∧ (10 : ℚ) ≠ 5)
    ∧ (adjust_prices [10, 20] [0, 5]).getD 1 0 = 10 := by
  have h := adjust_prices_characterization [10, 20] [0, 5]
  constructor
  · simpa using h.1 1
  · rw [h.2 1 (by norm_num)]
    norm_num [adjIndex, adjRate, List.range_succ, List.filterMap_cons,
      List.filterMap_nil, List.filter_cons]

/-- C9: when no bar's recorded close disagrees with the next bar's
`yesterday` reference, the scan records no discontinuity and the adjustment
is a no-op: `adjusted_close = close` at every index. -/
theorem adjust_noop_when_no_discontinuity (close yesterday : List ℚ)
    (h : ∀ i, i < close.length - 1 → close.getD i 0 = yesterday.getD (i + 1) 0) :
    adjust_prices close yesterday = close := by
  have hnil : adjIndex close yesterday = [] := by
    rw [adjIndex, List.filterMap_eq_nil_iff]
    intro i hi
    rw [if_neg]
    simp only [ne_eq, not_not]
    exact h i (List.mem_range.mp hi)
  simp [adjust_prices, hnil]

/-- Witness for `adjust_noop_when_no_discontinuity`: `close = [3, 4]`,
`yesterday = [0, 3]` has no discontinuity and is left unchanged. -/
theorem adjust_noop_when_no_discontinuity_witness :
    adjust_prices [3, 4] [0, 3] = [3, 4] :=
  adjust_noop_when_no_discontinuity [3, 4] [0, 3] (by
    intro i hi
    simp only [List.length_cons, List.length_nil] at hi
    interval_cases i
    rfl)

/-- C3 (code bug, evaluated at the failing input): with two symbols whose
native timestamps are `[1, 3]` and `[1, 2, 3]`, the source's
index-combination loop yields `[1, 3]` — the first symbol's index — because
the result of `comb_index.union(...)` is discarded, while the specified
union contains timestamp 2, at which the second symbol traded; so the
replay timeline never emits timestamp 2 for any symbol. -/
theorem comb_index_ignores_union :
    combIndex [[1, 3], [1, 2, 3]] = some [1, 3]
    ∧ 2 ∈ combIndexSpec [[1, 3], [1, 2, 3]]
    ∧ 2 ∉ ([1, 3] : List ℕ) := by
  decide

lemma all_congr' {α : Type} (l : List α) (f g : α → Bool)
    (h : ∀ a ∈ l, f a = g a) : l.all f = l.all g := by
  induction l with
  | nil => rfl
  | cons a l ih =>
    simp only [List.all_cons, h a (List.mem_cons_self a l),
      ih fun x hx => h x (List.mem_cons_of_mem a hx)]

lemma update_bars_step_nil (st : DH) (s : String) (h : st.symbol_data s = []) :
    update_bars_step st s = { st with continue_backtest := false } := by
  simp [update_bars_step, h]

lemma update_bars_step_cons (st : DH) (s : String) (b : Bar) (rest : List Bar)
    (h : st.symbol_data s = b :: rest) :
    update_bars_step st s =
      { st with
        symbol_data := fun s2 => if s2 = s then rest else st.symbol_data s2
        latest_symbol_data := fun s2 =>
          if s2 = s then st.latest_symbol_data s2 ++ [b]
          else st.latest_symbol_data s2 } := by
  simp [update_bars_step, h]

lemma update_bars_foldl_market (ss : List String) (st : DH) :
    (ss.foldl update_bars_step st).market_events = st.market_events := by
  induction ss generalizing st with
  | nil => rfl
  | cons s0 ss ih =>
    simp only [List.foldl_cons]
    rw [ih]
    cases hd : st.symbol_data s0 <;> simp [update_bars_step, hd]

lemma update_bars_foldl (ss : List String) (st : DH) (hnd : ss.Nodup) :
    (ss.foldl update_bars_step st).continue_backtest
        = (st.continue_backtest && ss.all fun s => !(st.symbol_data s).isEmpty)
    ∧ (∀ s, s ∈ ss → ∀ b rest, st.symbol_data s = b :: rest →
        (ss.foldl update_bars_step st).latest_symbol_data s
            = st.latest_symbol_data s ++ [b]
        ∧ (ss.foldl update_bars_step st).symbol_data s = rest)
    ∧ (∀ s, s ∉ ss →
        (ss.foldl update_bars_step st).latest_symbol_data s
            = st.latest_symbol_data s
        ∧ (ss.foldl update_bars_step st).symbol_data s = st.symbol_data s) := by
  induction ss generalizing st with
  | nil => simp
  | cons s0 ss ih =>
    obtain ⟨hs0, hssnd⟩ := List.nodup_cons.mp hnd
    simp only [List.foldl_cons]
    rcases hdata : st.symbol_data s0 with _ | ⟨b0, rest0⟩
    · rw [update_bars_step_nil st s0 hdata]
      obtain ⟨ihc, ihmem, ihout⟩ := ih { st with continue_backtest := false } hssnd
      refine ⟨?_, ?_, ?_⟩
      · rw [ihc]
        simp [hdata]
      · intro s hs b rest hsd
        rcases List.mem_cons.mp hs with rfl | hs'
        · rw [hdata] at hsd; cases hsd
        · exact ihmem s hs' b rest hsd
      · intro s hs
        exact ihout s (fun h => hs (List.mem_cons_of_mem s0 h))
    · rw [update_bars_step_cons st s0 b0 rest0 hdata]
      set st1 : DH :=
        { st with
          symbol_data := fun s2 => if s2 = s0 then rest0 else st.symbol_data s2
          latest_symbol_data := fun s2 =>
            if s2 = s0 then st.latest_symbol_data s2 ++ [b0]
            else st.latest_symbol_data s2 } with hst1
      obtain ⟨ihc, ihmem, ihout⟩ := ih st1 hssnd
      have hdata_ne : ∀ s ∈ ss, st1.symbol_data s = st.symbol_data s := by
        intro s hs
        have : s ≠ s0 := fun h => hs0 (h ▸ hs)
        simp [hst1, this]
      refine ⟨?_, ?_, ?_⟩
      · rw [ihc]
        have : (ss.all fun s => !(st1.symbol_data s).isEmpty)
            = ss.all fun s => !(st.symbol_data s).isEmpty :=
          all_congr' ss _ _ (fun s hs => by rw [hdata_ne s hs])
        simp [hst1, this, hdata]
      · intro s hs b rest hsd
        rcases List.mem_cons.mp hs with rfl | hs'
        · rw [hdata] at hsd
          injection hsd with hb hr
          subst hb
          subst hr
          obtain ⟨hl, hd⟩ := ihout s hs0
          constructor
          · rw [hl]; simp [hst1]
          · rw [hd]; simp [hst1]
        · have hsd1 : st1.symbol_data s = b :: rest := by
            rw [hdata_ne s hs']; exact hsd
          obtain ⟨hl, hd⟩ := ihmem s hs' b rest hsd1
          have hne : s ≠ s0 := fun h => hs0 (h ▸ hs')
          constructor
          · rw [hl]; simp [hst1, hne]
          · exact hd
      · intro s hs
        have hne : s ≠ s0 := fun h => hs (h ▸ List.mem_cons_self s0 ss)
        have hs' : s ∉ ss := fun h => hs (List.mem_cons_of_mem s0 h)
        obtain ⟨hl, hd⟩ := ihout s hs'
        constructor
        · rw [hl]; simp [hst1, hne]
        · rw [hd]; simp [hst1, hne]

/-- C5: when no source is yet exhausted, `update_bars` pulls the next bar of
every registered instrument, appends it to that instrument's observed
history, advances that instrument's source, and the backtest-continuation
flag (the operation's boolean result, stored in `continue_backtest`) stays
true exactly when every instrument's source was non-empty — it becomes
false as soon as any instrument's source is exhausted; one `MarketEvent` is
enqueued. -/
theorem update_bars_advances (d : DH) (hnd : d.symbol_list.Nodup)
    (hc : d.continue_backtest = true) :
    ((update_bars d).continue_backtest = true ↔
      ∀ s ∈ d.symbol_list, d.symbol_data s ≠ [])
    ∧ (∀ s ∈ d.symbol_list, ∀ b rest, d.symbol_data s = b :: rest →
        (update_bars d).latest_symbol_data s = d.latest_symbol_data s ++ [b]
        ∧ (update_bars d).symbol_data s = rest)
    ∧ (update_bars d).market_events = d.market_events + 1 := by
  obtain ⟨hcflag, hmem, _⟩ := update_bars_foldl d.symbol_list d hnd
  refine ⟨?_, ?_, by simp [update_bars, update_bars_foldl_market]⟩
  · show (d.symbol_list.foldl update_bars_step d).continue_backtest = true ↔ _
    rw [hcflag, hc]
    simp [List.all_eq_true, List.isEmpty_iff]
  · intro s hs b rest hsd
    exact hmem s hs b rest hsd

/-- Witness for `update_bars_advances`: two symbols, each with one remaining
bar; after one advance the flag is still true. -/
theorem update_bars_advances_witness :
    (update_bars
      { symbol_list := ["A", "B"]
        symbol_data := fun s => if s = "A" then [(1, 5)] else [(1, 7)]
        latest_symbol_data := fun _ => []
        continue_backtest := true
        market_events := 0 }).continue_backtest = true := by
  refine (update_bars_advances _ (by decide) rfl).1.mpr ?_
  intro s hs
  rcases List.mem_cons.mp hs with rfl | hs'
  · simp
  · simp at hs'
    subst hs'
    simp

/-- C7: on the sequences computed by `create_drawdown` (the loop runs over
`1 ≤ t < len`; index 0 is never assigned): the high-water-mark starts at 0
and obeys `hwm[t] = max(hwm[t-1], pnl[t])`; `drawdown[t] = hwm[t] - pnl[t]`;
`duration[t] = 0 if drawdown[t] == 0 else duration[t-1] + 1`; every computed
drawdown is non-negative; and the drawdown is 0 whenever the series equals
the high-water-mark. -/
theorem drawdown_invariants (pnl : List ℚ) (t : ℕ) (h1 : 1 ≤ t)
    (h2 : t < pnl.length) :
    hwm pnl 0 = 0
    ∧ hwm pnl t = max (hwm pnl (t - 1)) (pnl.getD t 0)
    ∧ drawdownVal pnl t = hwm pnl t - pnl.getD t 0
    ∧ durationVal pnl t =
        (if drawdownVal pnl t = 0 then some 0
         else (durationVal pnl (t - 1)).map (· + 1))
    ∧ 0 ≤ drawdownVal pnl t
    ∧ (pnl.getD t 0 = hwm pnl t → drawdownVal pnl t = 0) := by
  obtain ⟨t, rfl⟩ : ∃ u, u + 1 = t := ⟨t - 1, by omega⟩
  refine ⟨rfl, ?_, rfl, ?_, ?_, fun h => by rw [drawdownVal, h, sub_self]⟩
  · simp [hwm]
  · simp [durationVal]
  · have hle : pnl.getD (t + 1) 0 ≤ hwm pnl (t + 1) := le_max_right _ _
    simp only [drawdownVal]
    linarith

/-- Witness for `drawdown_invariants` on `pnl = [5, 3]` at `t = 1`. -/
theorem drawdown_invariants_witness : 0 ≤ drawdownVal [5, 3] 1 :=
  (drawdown_invariants [5, 3] 1 (by norm_num) (by norm_num)).2.2.2.2.1

lemma npMean_replicate (n : ℕ) (c : ℝ) (hn : 0 < n) :
    npMean (List.replicate n c) = c := by
  rw [npMean]
  simp only [List.sum_replicate, List.length_replicate, nsmul_eq_mul]
  have hne : (n : ℝ) ≠ 0 := by exact_mod_cast hn.ne'
  field_simp

lemma npStd_replicate (n : ℕ) (c : ℝ) (hn : 0 < n) :
    npStd (List.replicate n c) = 0 := by
  rw [npStd]
  have hmap : (List.replicate n c).map
      (fun x => (x - npMean (List.replicate n c)) ^ 2) = List.replicate n 0 := by
    rw [npMean_replicate n c hn]
    simp [List.map_replicate]
  rw [hmap, npMean]
  simp [List.sum_replicate]

/-- C6 (counterexample): on the constant non-zero return series `[1, 1, 1]`
the standard deviation is zero and `create_sharpe_ratio` returns the float
`inf` to its caller — numpy division by zero raises nothing — whereas the
specified behaviour (`sharpe_spec`) is failure with `DegenerateSeries`.  No
`DegenerateSeries` (nor any other exception) exists anywhere in the
source. -/
theorem sharpe_returns_inf_on_degenerate :
    create_sharpe_ratio (List.replicate 3 1) 252 = NpFloat.inf
    ∧ sharpe_spec (List.replicate 3 1) 252 =
        Except.error PerfError.DegenerateSeries := by
  have hstd : npStd (List.replicate 3 (1 : ℝ)) = 0 :=
    npStd_replicate 3 1 (by norm_num)
  have hmean : npMean (List.replicate 3 (1 : ℝ)) = 1 :=
    npMean_replicate 3 1 (by norm_num)
  constructor
  · norm_num [create_sharpe_ratio, hstd, hmean, Real.sqrt_pos]
  · norm_num [sharpe_spec, hstd]

/-- C6 (amended): on a constant non-zero return series the standard
deviation is zero and the Sharpe computation does not fail — it returns one
of the non-finite floats `inf`, `-inf` or `nan` produced by numpy's division
by zero; on any series whose standard deviation is non-zero it returns the
finite value `sqrt(periods) * mean(returns) / std(returns)`. -/
theorem sharpe_no_error_on_degenerate (c : ℝ) (n : ℕ) (_hc : c ≠ 0) (hn : 0 < n)
    (returns : List ℝ) (periods : ℝ) :
    (create_sharpe_ratio (List.replicate n c) periods = NpFloat.inf
      ∨ create_sharpe_ratio (List.replicate n c) periods = NpFloat.neginf
      ∨ create_sharpe_ratio (List.replicate n c) periods = NpFloat.nan)
    ∧ sharpe_spec (List.replicate n c) periods =
        Except.error PerfError.DegenerateSeries
    ∧ (npStd returns ≠ 0 → create_sharpe_ratio returns periods
        = NpFloat.finite (Real.sqrt periods * npMean returns / npStd returns)) := by
  have hstd : npStd (List.replicate n c) = 0 := npStd_replicate n c hn
  refine ⟨?_, by simp [sharpe_spec, hstd], fun h => by simp [create_sharpe_ratio, h]⟩
  rcases lt_trichotomy (Real.sqrt periods * npMean (List.replicate n c)) 0 with
    hlt | heq | hgt
  · exact Or.inr (Or.inl (by simp [create_sharpe_ratio, hstd, hlt, asymm hlt]))
  · exact Or.inr (Or.inr (by simp [create_sharpe_ratio, hstd, heq]))
  · exact Or.inl (by simp [create_sharpe_ratio, hstd, hgt])

lemma npStd_01 : npStd [0, 1] = 1 / 2 := by
  have hm : npMean [(0 : ℝ), 1] = 1 / 2 := by
    norm_num [npMean]
  rw [npStd, hm]
  have hmap : ([(0 : ℝ), 1].map fun x => (x - 1 / 2) ^ 2) = [1 / 4, 1 / 4] := by
    norm_num
  rw [hmap]
  have hm2 : npMean [(1 : ℝ) / 4, 1 / 4] = 1 / 4 := by
    norm_num [npMean]
  rw [hm2, show (1 : ℝ) / 4 = (1 / 2) ^ 2 by norm_num,
    Real.sqrt_sq (by norm_num)]

/-- Witness for `sharpe_no_error_on_degenerate`: the series `[0, 1]` has
standard deviation `1/2 ≠ 0` and gets the finite Sharpe value. -/
theorem sharpe_no_error_on_degenerate_witness :
    create_sharpe_ratio [0, 1] 252
      = NpFloat.finite (Real.sqrt 252 * npMean [0, 1] / npStd [0, 1]) :=
  (sharpe_no_error_on_degenerate 1 3 (by norm_num) (by norm_num) [0, 1] 252).2.2
    (by rw [npStd_01]; norm_num)

lemma sum_map_if_add (l : List String) (hl : l.Nodup) (a : String) (ha : a ∈ l)
    (g : String → ℚ) (d : ℚ) :
    (l.map fun s => if s = a then g s + d else g s).sum = (l.map g).sum + d := by
  induction l with
  | nil => cases ha
  | cons x l ih =>
    obtain ⟨hx, hl'⟩ := List.nodup_cons.mp hl
    rcases List.mem_cons.mp ha with rfl | ha'
    · have hrest : ∀ s ∈ l, (if s = a then g s + d else g s) = g s := fun s hs =>
        if_neg (fun h : s = a => hx (h ▸ hs))
      simp only [List.map_cons, List.sum_cons, eq_self_iff_true, if_true,
        List.map_congr_left hrest]
      ring
    · have hxa : x ≠ a := fun h => hx (h ▸ ha')
      simp only [List.map_cons, List.sum_cons, if_neg hxa]
      rw [ih hl' ha']
      ring

lemma update_fill_conservation (symbols : List String) (hnd : symbols.Nodup)
    (price : String → ℚ) (p : Portfolio) (f : FillEvent)
    (ht : f.type = "FILL") (hc : f.commission = 0)
    (hs : f.symbol ∈ symbols) (hb : p.bars f.symbol = price f.symbol) :
    (update_fill p f).cash
      + (symbols.map fun s =>
          ((update_fill p f).current_positions s : ℚ) * price s).sum
      = p.cash
        + (symbols.map fun s => (p.current_positions s : ℚ) * price s).sum := by
  have hmap : (symbols.map fun s =>
        ((update_fill p f).current_positions s : ℚ) * price s)
      = symbols.map fun s =>
        if s = f.symbol then
          (p.current_positions s : ℚ) * price s
            + ((fill_dir f.direction * f.quantity : ℤ) : ℚ) * price f.symbol
        else (p.current_positions s : ℚ) * price s := by
    apply List.map_congr_left
    intro s _
    by_cases h : s = f.symbol
    · subst h
      simp only [update_fill, ht, if_pos, update_holdings_from_fill,
        update_positions_from_fill, if_true]
      push_cast
      ring
    · simp [update_fill, ht, update_holdings_from_fill,
        update_positions_from_fill, h]
  rw [hmap, sum_map_if_add symbols hnd f.symbol hs _ _]
  have hcash : (update_fill p f).cash
      = p.cash - ((fill_dir f.direction : ℚ) * price f.symbol * (f.quantity : ℚ)) := by
    simp [update_fill, ht, update_holdings_from_fill,
      update_positions_from_fill, hb, hc]
  rw [hcash]
  push_cast
  ring

lemma apply_fills_conservation (symbols : List String) (hnd : symbols.Nodup)
    (price : String → ℚ) (fills : List (FillEvent × (String → ℚ)))
    (p : Portfolio)
    (hfills : ∀ fb ∈ fills, fb.1.type = "FILL" ∧ fb.1.commission = 0
      ∧ fb.1.symbol ∈ symbols ∧ fb.2 fb.1.symbol = price fb.1.symbol) :
    (apply_fills p fills).cash
      + (symbols.map fun s =>
          ((apply_fills p fills).current_positions s : ℚ) * price s).sum
      = p.cash
        + (symbols.map fun s => (p.current_positions s : ℚ) * price s).sum := by
  induction fills generalizing p with
  | nil => rfl
  | cons fb fills ih =>
    obtain ⟨ht, hc, hs, hb⟩ := hfills fb (List.mem_cons_self fb fills)
    have hstep := update_fill_conservation symbols hnd price
      { p with bars := fb.2 } fb.1 ht hc hs hb
    calc (apply_fills p (fb :: fills)).cash
          + (symbols.map fun s =>
              ((apply_fills p (fb :: fills)).current_positions s : ℚ) * price s).sum
        = (apply_fills (update_fill { p with bars := fb.2 } fb.1) fills).cash
          + (symbols.map fun s =>
              ((apply_fills (update_fill { p with bars := fb.2 } fb.1)
                fills).current_positions s : ℚ) * price s).sum := rfl
      _ = (update_fill { p with bars := fb.2 } fb.1).cash
          + (symbols.map fun s =>
              ((update_fill { p with bars := fb.2 } fb.1).current_positions s : ℚ)
                * price s).sum :=
          ih _ fun fb' h => hfills fb' (List.mem_cons_of_mem fb h)
      _ = p.cash + (symbols.map fun s =>
              (p.current_positions s : ℚ) * price s).sum := hstep

/-- C8 (counterexample): from initial capital 1000, a zero-commission BUY of
1 unit of `"A"` at bar price 100 followed by a zero-commission SELL of
1 unit at bar price 110 leaves cash at 1010 with a zero position, so
`cash + Σ position[i] * fill_price[i] = 1010 ≠ 1000` whatever value
`fill_price["A"]` is given — the round trip realises a trading profit, and
fill processing does not conserve the claimed quantity across price
changes. -/
theorem ledger_not_conserved_across_prices :
    (apply_fills (initPortfolio ["A"] (fun _ => 0) 1000)
        [(⟨"FILL", "A", 1, "BUY", 0, 0⟩, fun _ => 100),
         (⟨"FILL", "A", 1, "SELL", 0, 0⟩, fun _ => 110)]).cash = 1010
    ∧ (apply_fills (initPortfolio ["A"] (fun _ => 0) 1000)
        [(⟨"FILL", "A", 1, "BUY", 0, 0⟩, fun _ => 100),
         (⟨"FILL", "A", 1, "SELL", 0, 0⟩, fun _ => 110)]).current_positions "A" = 0
    ∧ (1010 : ℚ) ≠ 1000 := by
  refine ⟨?_, ?_, by norm_num⟩ <;>
    norm_num [apply_fills, update_fill, update_holdings_from_fill,
      update_positions_from_fill, initPortfolio, fill_dir_buy, fill_dir_sell]

/-- C8 (amended): for every sequence of zero-commission fills applied to a
freshly initialised portfolio in which every fill of an instrument executes
at one per-instrument price `price[i]` (the latest bar's adjusted close in
force at each of that instrument's fills), the final
`cash + Σ position[i] * price[i]` over the registered instruments equals the
initial capital: no money is created or destroyed.  (The unrestricted claim
fails when an instrument's fills occur at different prices — see the
counterexample.) -/
theorem ledger_conservation_fixed_prices (symbols : List String)
    (bars0 : String → ℚ) (cap : ℚ) (price : String → ℚ)
    (fills : List (FillEvent × (String → ℚ))) (hnd : symbols.Nodup)
    (hfills : ∀ fb ∈ fills, fb.1.type = "FILL" ∧ fb.1.commission = 0
      ∧ fb.1.symbol ∈ symbols ∧ fb.2 fb.1.symbol = price fb.1.symbol) :
    (apply_fills (initPortfolio symbols bars0 cap) fills).cash
      + (symbols.map fun s =>
          ((apply_fills (initPortfolio symbols bars0 cap)
            fills).current_positions s : ℚ) * price s).sum = cap := by
  rw [apply_fills_conservation symbols hnd price fills _ hfills]
  have hzero : (symbols.map fun s =>
      ((initPortfolio symbols bars0 cap).current_positions s : ℚ) * price s)
      = symbols.map fun _ => (0 : ℚ) :=
    List.map_congr_left fun s _ => by simp [initPortfolio]
  rw [hzero]
  simp [initPortfolio]

/-- Witness for `ledger_conservation_fixed_prices`: buy 2 of `"A"` at 50,
sell 1 of `"A"` at 50, all commission-free from capital 1000; the invariant
evaluates to `950 + 1 * 50 = 1000`. -/
theorem ledger_conservation_fixed_prices_witness :
    (apply_fills (initPortfolio ["A"] (fun _ => 0) 1000)
        [(⟨"FILL", "A", 2, "BUY", 0, 0⟩, fun _ => 50),
         (⟨"FILL", "A", 1, "SELL", 0, 0⟩, fun _ => 50)]).cash
      + ((["A"].map fun s =>
          ((apply_fills (initPortfolio ["A"] (fun _ => 0) 1000)
              [(⟨"FILL", "A", 2, "BUY", 0, 0⟩, fun _ => 50),
               (⟨"FILL", "A", 1, "SELL", 0, 0⟩, fun _ => 50)]).current_positions s : ℚ)
            * (fun _ => (50 : ℚ)) s)).sum = 1000 := by
  refine ledger_conservation_fixed_prices ["A"] (fun _ => 0) 1000
    (fun _ => 50) _ (by simp) ?_
  intro fb hfb
  rcases List.mem_cons.mp hfb with rfl | hfb'
  · exact ⟨rfl, rfl, by simp, rfl⟩
  · simp only [List.mem_singleton] at hfb'
    subst hfb'
    exact ⟨rfl, rfl, by simp, rfl⟩

end TradingEngine
